import Mathlib

/-!
Verification of the input-action state machine, the input manager, the
frame-rate scheduler and the frame-time history of the
`sdl-egui-wgpu-soft-rend-base` application.

The Rust source is shallowly embedded:
* `InputAction` (src/src/app/input_action.rs) becomes a Lean structure with
  a signed-integer accumulator modelled as `Int` clamped to the `i32`
  range by an explicit saturating addition.
* `InputManager` (src/src/app/input_manager.rs) becomes association lists
  from key codes to action identifiers into a shared store, mirroring the
  `HashMap<i32, Rc<RefCell<InputAction>>>` fields.
* The main-loop scheduler (src/src/app/mod.rs, `App::run`) becomes a pure
  iteration function over a scheduler state whose `f64` tick quantities are
  modelled as exact rationals; the raw `u64` performance-counter
  subtractions are modelled separately over `Nat` with explicit `% 2^64`
  where the source uses plain (wrapping) subtraction.
* `FrameHistory` (src/src/app/frame_history.rs) delegates to the external
  `egui::util::History`; its `average` and `mean_time_interval` are
  modelled from the spec over a retained sample list.
-/

namespace SpecProof

/-! ## InputAction (src/src/app/input_action.rs) -/

inductive InputActionBehavior where
  | Normal
  | DetectRepeat
  | DetectInitialPressOnly
  deriving DecidableEq, Repr

inductive InputActionState where
  | Released
  | Pressed
  | WaitingForRelease
  deriving DecidableEq, Repr

structure InputAction where
  name : String
  behavior : InputActionBehavior
  state : InputActionState
  amount : Int
  deriving DecidableEq, Repr

/-- The `i32::MAX` bound of the Rust accumulator. -/
def i32Max : Int := 2147483647

/-- The `i32::MIN` bound of the Rust accumulator. -/
def i32Min : Int := -2147483648

/-- `i32::saturating_add` modelled on unbounded integers with explicit
clamping to the `i32` range. -/
def saturatingAdd (a b : Int) : Int :=
  if a + b < i32Min then i32Min
  else if i32Max < a + b then i32Max
  else a + b

/-- Membership in the `i32` range. -/
def inI32 (a : Int) : Prop := i32Min ≤ a ∧ a ≤ i32Max

instance (a : Int) : Decidable (inI32 a) := by
  unfold inI32; infer_instance

/-- A freshly built action, as produced by `InputActionBuilder`
(state `Released`, amount `0`). -/
def freshAction (nm : String) (b : InputActionBehavior) : InputAction :=
  { name := nm, behavior := b, state := .Released, amount := 0 }

/-- `InputAction::press_with` (input_action.rs lines 40-54).  The amount is
added only for `Normal`, or for `DetectRepeat` while not already `Pressed`;
the `DetectInitialPressOnly` behavior falls into the empty catch-all arm of
the `match` and never accumulates.  The state is then set to `Pressed`
unless it was `WaitingForRelease`. -/
def press_with (a : InputAction) (amount : Int) : InputAction :=
  if a.state ≠ .WaitingForRelease then
    let a1 :=
      match a.behavior with
      | .Normal => { a with amount := saturatingAdd a.amount amount }
      | .DetectRepeat =>
          if a.state ≠ .Pressed then
            { a with amount := saturatingAdd a.amount amount }
          else a
      | .DetectInitialPressOnly => a
    { a1 with state := .Pressed }
  else a

/-- `InputAction::press` (input_action.rs lines 36-38). -/
def press (a : InputAction) : InputAction := press_with a 1

/-- `InputAction::release` (input_action.rs lines 56-58): sets the state to
`Released` and leaves the amount untouched. -/
def release (a : InputAction) : InputAction := { a with state := .Released }

/-- `InputAction::tap` (input_action.rs lines 31-34). -/
def tap (a : InputAction) : InputAction := release (press a)

/-- `InputAction::is_pressed` (input_action.rs lines 60-62). -/
def is_pressed (a : InputAction) : Bool := a.amount ≠ 0

/-- `InputAction::reset` (input_action.rs lines 64-67). -/
def reset (a : InputAction) : InputAction :=
  { a with state := .Released, amount := 0 }

/-- `InputAction::get_amount` (input_action.rs lines 73-84): returns the
current amount and the mutated action. -/
def get_amount (a : InputAction) : Int × InputAction :=
  let retVal := a.amount
  if retVal ≠ 0 then
    if a.state = .Released then
      (retVal, { a with amount := 0 })
    else if a.behavior = .DetectInitialPressOnly then
      (retVal, { a with state := .WaitingForRelease, amount := 0 })
    else
      (retVal, a)
  else
    (retVal, a)

/-- `n` consecutive `press()` calls. -/
def pressN (a : InputAction) : Nat → InputAction
  | 0 => a
  | n + 1 => press (pressN a n)

/-! ## InputManager (src/src/app/input_manager.rs)

The two `HashMap<i32, Rc<RefCell<InputAction>>>` fields are modelled as
association lists from key codes to action identifiers; the shared
`Rc<RefCell<_>>` cells become a store mapping identifiers to the current
`InputAction` value, so that two map entries holding the same identifier
model two clones of the same `Rc`. -/

abbrev ActionId := Nat

/-- Association-list lookup, modelling `HashMap::get`. -/
def mapLookup (m : List (Int × ActionId)) (k : Int) : Option ActionId :=
  match m with
  | [] => none
  | (k1, v) :: rest => if k1 = k then some v else mapLookup rest k

/-- Remove every binding of `k`, an auxiliary step of `HashMap::insert`
and the model of `HashMap::remove`. -/
def mapErase (m : List (Int × ActionId)) (k : Int) : List (Int × ActionId) :=
  match m with
  | [] => []
  | (k1, v) :: rest =>
      if k1 = k then mapErase rest k else (k1, v) :: mapErase rest k

/-- `HashMap::insert`: overwrite any previous binding of `k`. -/
def mapInsert (m : List (Int × ActionId)) (k : Int) (v : ActionId) :
    List (Int × ActionId) :=
  (k, v) :: mapErase m k

structure InputManager where
  key_actions : List (Int × ActionId)
  pressed_keys : List (Int × ActionId)
  deriving Repr

/-- The full input state: the shared action cells plus the manager. -/
structure IMState where
  store : ActionId → InputAction
  mgr : InputManager

/-- Point update of the shared store, modelling a `borrow_mut` mutation of
one `Rc<RefCell<InputAction>>` cell. -/
def storeUpdate (s : ActionId → InputAction) (i : ActionId)
    (f : InputAction → InputAction) : ActionId → InputAction :=
  fun j => if j = i then f (s j) else s j

/-- `InputManager::new` paired with a given store. -/
def imNew (store : ActionId → InputAction) : IMState :=
  { store := store, mgr := { key_actions := [], pressed_keys := [] } }

/-- `InputManager::map_to_key` (input_manager.rs lines 27-29). -/
def map_to_key (s : IMState) (k : Int) (aid : ActionId) : IMState :=
  { s with mgr := { s.mgr with key_actions := mapInsert s.mgr.key_actions k aid } }

/-- `InputManager::key_pressed` (input_manager.rs lines 35-40). -/
def key_pressed (s : IMState) (k : Int) : IMState :=
  match mapLookup s.mgr.key_actions k with
  | none => s
  | some aid =>
      { store := storeUpdate s.store aid press,
        mgr := { s.mgr with pressed_keys := mapInsert s.mgr.pressed_keys k aid } }

/-- `InputManager::key_released` (input_manager.rs lines 42-47). -/
def key_released (s : IMState) (k : Int) : IMState :=
  match mapLookup s.mgr.key_actions k with
  | none => s
  | some aid =>
      { store := storeUpdate s.store aid release,
        mgr := { s.mgr with pressed_keys := mapErase s.mgr.pressed_keys k } }

/-- `InputManager::release_all` (input_manager.rs lines 49-54): release
every action held in `pressed_keys`, then clear the map. -/
def release_all (s : IMState) : IMState :=
  { store :=
      s.mgr.pressed_keys.foldl (fun st p => storeUpdate st p.2 release) s.store,
    mgr := { s.mgr with pressed_keys := [] } }

/-- One externally driven `InputManager` operation. -/
inductive IMOp where
  | opMap (k : Int) (aid : ActionId)
  | opPressed (k : Int)
  | opReleased (k : Int)
  | opReleaseAll
  deriving DecidableEq, Repr

def imStep (s : IMState) : IMOp → IMState
  | .opMap k aid => map_to_key s k aid
  | .opPressed k => key_pressed s k
  | .opReleased k => key_released s k
  | .opReleaseAll => release_all s

def imRun (s : IMState) (ops : List IMOp) : IMState := ops.foldl imStep s

/-- Does the operation re-bind a key (a `map_to_key` call)? -/
def IMOp.isMap : IMOp → Bool
  | .opMap _ _ => true
  | _ => false

/-- Every key held in `pressed_keys` is bound in `key_actions`
(domain part of the spec invariant). -/
def keysPresent (s : IMState) : Prop :=
  ∀ k aid, mapLookup s.mgr.pressed_keys k = some aid →
    (mapLookup s.mgr.key_actions k).isSome

/-- Every key held in `pressed_keys` is bound in `key_actions` to the very
same action instance (full spec invariant). -/
def sameInstance (s : IMState) : Prop :=
  ∀ k aid, mapLookup s.mgr.pressed_keys k = some aid →
    mapLookup s.mgr.key_actions k = some aid

/-! ## Scheduler (src/src/app/mod.rs, `App::run`)

The `f64` tick quantities (`over_sleep_ticks`, `excess_ticks`,
`frame_ticks`, `proc_ticks`) are modelled as exact rationals.  One loop
iteration is a pure function of the scheduler state and of the counter
readings the iteration observes (`after_ticks` at line 283, the reading
after the sleep, and the final reading when the early-wake spin loop or the
behind-schedule branch re-reads the counter). -/

/-- `App::MAX_FRAME_SKIPS` (mod.rs line 99). -/
def MAX_FRAME_SKIPS : Nat := 5

/-- `App::NUM_DELAYS_PER_YIELD` (mod.rs line 100). -/
def NUM_DELAYS_PER_YIELD : Nat := 16

structure SchedState where
  before : ℚ
  overSleep : ℚ
  numDelays : Nat
  excess : ℚ
  deriving DecidableEq, Repr

/-- The counter readings one iteration observes: `after` is the reading at
mod.rs line 283; `end1` the next reading (line 294 after the sleep, or
line 314 in the behind-schedule branch); `end2` the final reading if the
early-wake spin loop at lines 298-303 runs. -/
structure IterInput where
  after : ℚ
  end1 : ℚ
  end2 : ℚ
  deriving DecidableEq, Repr

/-- The catch-up loop of mod.rs lines 321-326: while `excess >= period`
and fewer than `fuel` skips have run, run one extra update and subtract
`period`.  Returns the remaining excess and the number of extra updates. -/
def catchUp : Nat → ℚ → ℚ → ℚ × Nat
  | 0, excess, _ => (excess, 0)
  | fuel + 1, excess, period =>
      if period ≤ excess then
        ((catchUp fuel (excess - period) period).1,
         (catchUp fuel (excess - period) period).2 + 1)
      else (excess, 0)

/-- One iteration of the timing section of the main loop (mod.rs lines
283-327), given the frame period in ticks.  Returns the new scheduler
state and the number of `update()` calls the whole iteration made (the one
unconditional call at line 274 plus the catch-up calls). -/
def schedIter (frame : ℚ) (st : SchedState) (inp : IterInput) :
    SchedState × Nat :=
  let proc := (inp.after - st.before) + st.overSleep
  let st1 :=
    if proc ≤ frame then
      let sleep := frame - proc
      let os := (inp.end1 - inp.after) - sleep
      if os < 0 then
        { st with overSleep := 0, numDelays := 0, before := inp.end2 }
      else
        { st with overSleep := os, numDelays := 0, before := inp.end1 }
    else
      let nd := st.numDelays + 1
      { st with overSleep := 0,
                numDelays := if NUM_DELAYS_PER_YIELD ≤ nd then 0 else nd,
                excess := st.excess + (proc - frame),
                before := inp.end1 }
  let r := catchUp MAX_FRAME_SKIPS st1.excess frame
  ({ st1 with excess := r.1 }, 1 + r.2)

/-- Run the scheduler over a list of per-iteration counter readings. -/
def schedRun (frame : ℚ) (st : SchedState) (inps : List IterInput) :
    SchedState :=
  inps.foldl (fun s i => (schedIter frame s i).1) st

/-! ### Raw u64 tick subtractions (mod.rs lines 266, 286, 295, 299)

The performance counter is a `u64`.  Line 266 uses
`before_ticks.saturating_sub(start_ticks)`; lines 286, 295 and 299 use the
plain `-` operator, which on `u64` wraps modulo `2^64` in release builds
(and panics in debug builds) when the subtrahend is larger. -/

def U64MOD : Nat := 18446744073709551616

/-- Plain `u64` subtraction `a - b` in release semantics: wraps
modulo `2^64`. -/
def u64Sub (a b : Nat) : Nat := (a % U64MOD + (U64MOD - b % U64MOD)) % U64MOD

/-- `u64::saturating_sub` (truncated subtraction). -/
def u64SaturatingSub (a b : Nat) : Nat := a - b

/-- The elapsed-time computation at mod.rs line 266:
`before_ticks.saturating_sub(start_ticks)`. -/
def elapsedTicks (beforeT startT : Nat) : Nat := u64SaturatingSub beforeT startT

/-- The processing-time subtraction at mod.rs line 286:
`after_ticks - before_ticks`. -/
def procTicksSub (afterT beforeT : Nat) : Nat := u64Sub afterT beforeT

/-- The oversleep subtraction at mod.rs line 295:
`end_ticks - after_ticks`. -/
def overSleepTicksSub (endT afterT : Nat) : Nat := u64Sub endT afterT

/-- The spin-loop subtraction at mod.rs line 299:
`end_ticks - before_ticks`. -/
def spinTicksSub (endT beforeT : Nat) : Nat := u64Sub endT beforeT

/-! ## FrameHistory (src/src/app/frame_history.rs)

`FrameHistory` wraps `egui::util::History<f32>`; the wrapper's `fps` and
`mean_frame_time` are in src, while `History::average` and
`History::mean_time_interval` live in the external egui crate.  Modelled
from the spec: the history is the retained list of `(timestamp, duration)`
samples; `average` is the arithmetic mean of the durations (`none` when
empty); `mean_time_interval` is
`(newest timestamp - oldest timestamp) / (len - 1)` when at least two
samples are retained, `none` otherwise.  The `f32`/`f64` arithmetic is
modelled over exact rationals. -/

structure Sample where
  t : ℚ
  v : ℚ
  deriving DecidableEq, Repr

/-- Modelled from the spec: `egui::util::History::average`, the arithmetic
mean of the retained durations, `none` when the history is empty. -/
def historyAverage (l : List Sample) : Option ℚ :=
  if l.isEmpty then none
  else some ((l.map Sample.v).sum / l.length)

/-- Modelled from the spec: `egui::util::History::mean_time_interval`, the
mean time difference between consecutive samples, `none` with fewer than
two samples. -/
def historyMeanTimeInterval (l : List Sample) : Option ℚ :=
  match l.head?, l.getLast? with
  | some first, some last =>
      if 2 ≤ l.length then some ((last.t - first.t) / ((l.length : ℚ) - 1))
      else none
  | _, _ => none

/-- `FrameHistory::mean_frame_time` (frame_history.rs lines 26-28):
`average().unwrap_or_default()`. -/
def mean_frame_time (l : List Sample) : ℚ := (historyAverage l).getD 0

/-- `FrameHistory::fps` (frame_history.rs lines 31-35):
`1 / mean_time_interval` guarded by `mean_interval > 0.0`. -/
def fps (l : List Sample) : ℚ :=
  let meanInterval := (historyMeanTimeInterval l).getD 0
  if 0 < meanInterval then 1 / meanInterval else 0

/-! ## Lemmas about `InputAction` -/

lemma inI32_saturatingAdd (a b : Int) : inI32 (saturatingAdd a b) := by
  unfold inI32 saturatingAdd i32Min i32Max
  split_ifs <;> omega

lemma saturatingAdd_max (x : Int) (hx : 0 ≤ x) :
    saturatingAdd i32Max x = i32Max := by
  unfold saturatingAdd i32Min i32Max at *
  split_ifs <;> omega

lemma saturatingAdd_min (x : Int) (hx : x ≤ 0) :
    saturatingAdd i32Min x = i32Min := by
  unfold saturatingAdd i32Min i32Max at *
  split_ifs <;> omega

lemma press_with_amount_cases (a : InputAction) (x : Int) :
    (press_with a x).amount = a.amount ∨
    (press_with a x).amount = saturatingAdd a.amount x := by
  obtain ⟨nm, b, st, amt⟩ := a
  cases b <;> cases st <;> simp [press_with]

lemma press_with_inI32 (a : InputAction) (x : Int) (h : inI32 a.amount) :
    inI32 (press_with a x).amount := by
  rcases press_with_amount_cases a x with hc | hc <;> rw [hc]
  · exact h
  · exact inI32_saturatingAdd _ _

lemma foldl_press_with_inI32 (xs : List Int) (a : InputAction)
    (h : inI32 a.amount) : inI32 ((xs.foldl press_with a).amount) := by
  induction xs generalizing a with
  | nil => exact h
  | cons y ys ih => exact ih _ (press_with_inI32 a y h)

lemma press_with_normal (a : InputAction) (x : Int)
    (hb : a.behavior = .Normal) (hs : a.state ≠ .WaitingForRelease) :
    (press_with a x).amount = saturatingAdd a.amount x := by
  obtain ⟨nm, b, st, amt⟩ := a
  cases b <;> cases st <;> simp_all [press_with]

/-- After `n ≥ 1` presses, a fresh `DetectRepeat` action is `Pressed` with
amount exactly 1. -/
lemma pressN_detectRepeat (nm : String) (n : Nat) (hn : 1 ≤ n) :
    pressN (freshAction nm .DetectRepeat) n =
      { name := nm, behavior := .DetectRepeat, state := .Pressed,
        amount := 1 } := by
  induction n with
  | zero => omega
  | succ m ih =>
      rcases Nat.eq_zero_or_pos m with hm | hm
      · subst hm
        simp [pressN, press, press_with, freshAction, saturatingAdd,
          i32Min, i32Max]
      · rw [pressN, ih hm]
        simp [press, press_with]

/-- After `n` presses, a fresh `Normal` action holds
`min n i32Max` (the saturating count of presses). -/
lemma pressN_normal (nm : String) (n : Nat) :
    pressN (freshAction nm .Normal) n =
      { name := nm, behavior := .Normal,
        state := if n = 0 then .Released else .Pressed,
        amount := min (n : Int) i32Max } := by
  induction n with
  | zero =>
      simp [pressN, freshAction]
      unfold i32Max; omega
  | succ m ih =>
      rw [pressN, ih]
      rcases Nat.eq_zero_or_pos m with hm | hm
      · subst hm
        simp [press, press_with, saturatingAdd, i32Min, i32Max]
      · have hm0 : ¬ (m = 0) := by omega
        have hm1 : ¬ (m + 1 = 0) := by omega
        simp only [hm0, hm1, if_false]
        simp only [press, press_with, saturatingAdd]
        unfold i32Min i32Max
        rw [if_pos (by decide :
          InputActionState.Pressed ≠ InputActionState.WaitingForRelease)]
        simp only [InputAction.mk.injEq, true_and]
        push_cast
        split_ifs <;> omega

/-! ## Claim theorems about `InputAction` -/

/-- Claim C9 (confirmed): for every behavior and state, `get_amount` on an
action whose amount is 0 returns 0 and leaves the action unchanged; in
particular a `DetectInitialPressOnly` action never moves to
`WaitingForRelease` through a read that returns 0. -/
theorem get_amount_zero_noop (a : InputAction) (h : a.amount = 0) :
    get_amount a = (0, a) := by
  simp [get_amount, h]

theorem get_amount_zero_noop_witness :
    (freshAction "pressA" .DetectInitialPressOnly).amount = 0 ∧
    get_amount (freshAction "pressA" .DetectInitialPressOnly) =
      (0, freshAction "pressA" .DetectInitialPressOnly) :=
  ⟨rfl, get_amount_zero_noop (freshAction "pressA" .DetectInitialPressOnly) rfl⟩

/-- Claim C10 (confirmed): accumulation in `press_with` is the `i32`
saturating sum.  Whenever the call changes the amount it changes it to
`saturating_add`; for `Normal` behavior outside `WaitingForRelease` it
always does; no sequence of `press_with` calls ever leaves the `i32`
range; and the saturating sum clamps at `i32::MAX` and `i32::MIN`. -/
theorem press_with_saturating (a : InputAction) (x : Int) (xs : List Int)
    (h : inI32 a.amount) :
    ((press_with a x).amount = a.amount ∨
      (press_with a x).amount = saturatingAdd a.amount x) ∧
    (a.behavior = .Normal → a.state ≠ .WaitingForRelease →
      (press_with a x).amount = saturatingAdd a.amount x) ∧
    inI32 ((xs.foldl press_with a).amount) ∧
    (0 ≤ x → saturatingAdd i32Max x = i32Max) ∧
    (x ≤ 0 → saturatingAdd i32Min x = i32Min) :=
  ⟨press_with_amount_cases a x,
   fun hb hs => press_with_normal a x hb hs,
   foldl_press_with_inI32 xs a h,
   fun hx => saturatingAdd_max x hx,
   fun hx => saturatingAdd_min x hx⟩

theorem press_with_saturating_witness :
    inI32 (freshAction "pressA" InputActionBehavior.Normal).amount ∧
    (((press_with (freshAction "pressA" .Normal) 2).amount =
        (freshAction "pressA" .Normal).amount ∨
      (press_with (freshAction "pressA" .Normal) 2).amount =
        saturatingAdd (freshAction "pressA" .Normal).amount 2) ∧
    ((freshAction "pressA" .Normal).behavior = .Normal →
      (freshAction "pressA" .Normal).state ≠ .WaitingForRelease →
      (press_with (freshAction "pressA" .Normal) 2).amount =
        saturatingAdd (freshAction "pressA" .Normal).amount 2) ∧
    inI32 (([1, -3] : List Int).foldl press_with
      (freshAction "pressA" .Normal)).amount ∧
    (0 ≤ (2 : Int) → saturatingAdd i32Max 2 = i32Max) ∧
    ((2 : Int) ≤ 0 → saturatingAdd i32Min 2 = i32Min)) :=
  ⟨by decide, press_with_saturating (freshAction "pressA" .Normal) 2 [1, -3]
    (by decide)⟩

/-- Claim C5 counterexample: after `2^31` consecutive presses a fresh
`Normal` action holds `i32::MAX = 2^31 - 1`, not `2^31`: the claim's
"amount == N for every N ≥ 1" fails at `N = 2147483648` because the
accumulator saturates. -/
theorem normal_press_overflow_cex :
    (pressN (freshAction "pressA" .Normal) 2147483648).amount ≠
      (2147483648 : Int) := by
  rw [pressN_normal]
  unfold i32Max
  simp only []
  omega

/-- Claim C5 (amended): for every `n ≥ 1`, `n` consecutive `press()` calls
on a fresh action leave amount 1 under `DetectRepeat`, and amount `n`
under `Normal` provided `n ≤ i32::MAX` (beyond that the accumulator
saturates at `i32::MAX`). -/
theorem press_counts (nm : String) (n : Nat) (hn : 1 ≤ n)
    (hmax : (n : Int) ≤ i32Max) :
    (pressN (freshAction nm .DetectRepeat) n).amount = 1 ∧
    (pressN (freshAction nm .Normal) n).amount = (n : Int) := by
  constructor
  · rw [pressN_detectRepeat nm n hn]
  · rw [pressN_normal]
    simp only []
    omega

theorem press_counts_witness :
    1 ≤ 3 ∧ ((3 : Nat) : Int) ≤ i32Max ∧
    ((pressN (freshAction "pressA" .DetectRepeat) 3).amount = 1 ∧
     (pressN (freshAction "pressA" .Normal) 3).amount = ((3 : Nat) : Int)) :=
  ⟨by decide, by decide, press_counts "pressA" 3 (by decide) (by decide)⟩

/-- Claim C2 (code bug): the `match` in `press_with` has no arm for
`DetectInitialPressOnly`, so that behavior never accumulates: pressing a
fresh `DetectInitialPressOnly` action leaves amount 0 (though the state
does become `Pressed`), and the following `get_amount` returns 0 — not
the accumulated value the spec promises.  The same press on a
`DetectRepeat` action accumulates 1, confirming the divergence is
specific to `DetectInitialPressOnly`; the `DetectInitialPressOnly`
branch inside `get_amount` is therefore unreachable. -/
theorem detect_initial_press_only_dead :
    (press (freshAction "pressA" .DetectInitialPressOnly)).amount = 0 ∧
    (press (freshAction "pressA" .DetectInitialPressOnly)).state = .Pressed ∧
    (get_amount (press (freshAction "pressA" .DetectInitialPressOnly))).1
      = 0 ∧
    (press_with (freshAction "pressA" .DetectInitialPressOnly) 5).amount
      = 0 ∧
    (press (freshAction "pressA" .DetectRepeat)).amount = 1 := by
  decide

/-! ## Lemmas about `InputManager` -/

lemma mapLookup_erase (m : List (Int × ActionId)) (k k1 : Int) :
    mapLookup (mapErase m k) k1 =
      if k = k1 then none else mapLookup m k1 := by
  induction m with
  | nil => simp [mapErase, mapLookup]
  | cons p rest ih =>
      obtain ⟨k2, v⟩ := p
      simp only [mapErase, mapLookup]
      by_cases h2 : k2 = k <;> by_cases h1 : k2 = k1 <;>
        by_cases hk : k = k1 <;>
        simp_all [mapLookup]

lemma mapLookup_insert (m : List (Int × ActionId)) (k k1 : Int)
    (v : ActionId) :
    mapLookup (mapInsert m k v) k1 =
      if k = k1 then some v else mapLookup m k1 := by
  rw [mapInsert, mapLookup]
  by_cases h : k = k1
  · simp [h]
  · rw [if_neg h, if_neg h, mapLookup_erase, if_neg h]

/-- Releasing a list of held actions never changes any accumulator. -/
lemma foldl_release_amount (l : List (Int × ActionId))
    (st : ActionId → InputAction) (aid : ActionId) :
    ((l.foldl (fun s p => storeUpdate s p.2 release) st) aid).amount =
      (st aid).amount := by
  induction l generalizing st with
  | nil => rfl
  | cons p ps ih =>
      rw [List.foldl_cons, ih]
      unfold storeUpdate release
      split_ifs <;> rfl

/-- Releasing a list of held actions keeps an already-released action
released. -/
lemma foldl_release_state_preserved (l : List (Int × ActionId))
    (st : ActionId → InputAction) (aid : ActionId)
    (h : (st aid).state = InputActionState.Released) :
    ((l.foldl (fun s p => storeUpdate s p.2 release) st) aid).state =
      InputActionState.Released := by
  induction l generalizing st with
  | nil => exact h
  | cons p ps ih =>
      rw [List.foldl_cons]
      apply ih
      unfold storeUpdate release
      split_ifs <;> simp [h]

/-- Every action listed in the held set is `Released` after the fold. -/
lemma foldl_release_state_mem (l : List (Int × ActionId))
    (st : ActionId → InputAction) (k : Int) (aid : ActionId)
    (h : (k, aid) ∈ l) :
    ((l.foldl (fun s p => storeUpdate s p.2 release) st) aid).state =
      InputActionState.Released := by
  revert h
  induction l generalizing st with
  | nil => intro h; cases h
  | cons p ps ih =>
      intro h
      rw [List.foldl_cons]
      rcases List.mem_cons.mp h with h1 | h2
      · subst h1
        apply foldl_release_state_preserved
        simp [storeUpdate, release]
      · exact ih _ h2


lemma key_pressed_none (s : IMState) (k : Int)
    (hl : mapLookup s.mgr.key_actions k = none) : key_pressed s k = s := by
  unfold key_pressed; rw [hl]

lemma key_pressed_some (s : IMState) (k : Int) (aid : ActionId)
    (hl : mapLookup s.mgr.key_actions k = some aid) :
    key_pressed s k =
      { store := storeUpdate s.store aid press,
        mgr := { s.mgr with
          pressed_keys := mapInsert s.mgr.pressed_keys k aid } } := by
  unfold key_pressed; rw [hl]

lemma key_released_none (s : IMState) (k : Int)
    (hl : mapLookup s.mgr.key_actions k = none) : key_released s k = s := by
  unfold key_released; rw [hl]

lemma key_released_some (s : IMState) (k : Int) (aid : ActionId)
    (hl : mapLookup s.mgr.key_actions k = some aid) :
    key_released s k =
      { store := storeUpdate s.store aid release,
        mgr := { s.mgr with
          pressed_keys := mapErase s.mgr.pressed_keys k } } := by
  unfold key_released; rw [hl]

/-- `keysPresent` is preserved by every single operation. -/
lemma imStep_keysPresent (s : IMState) (op : IMOp) (h : keysPresent s) :
    keysPresent (imStep s op) := by
  cases op with
  | opMap k aid =>
      intro k1 a1 h1
      simp only [imStep, map_to_key] at h1 ⊢
      rw [mapLookup_insert]
      by_cases hk : k = k1
      · simp [hk]
      · rw [if_neg hk]; exact h k1 a1 h1
  | opPressed k =>
      intro k1 a1 h1
      simp only [imStep] at h1 ⊢
      cases hl : mapLookup s.mgr.key_actions k with
      | none => rw [key_pressed_none s k hl] at h1 ⊢; exact h k1 a1 h1
      | some aid =>
          rw [key_pressed_some s k aid hl] at h1 ⊢
          simp only [mapLookup_insert] at h1
          by_cases hk : k = k1
          · subst hk; simp only []; rw [hl]; rfl
          · rw [if_neg hk] at h1; exact h k1 a1 h1
  | opReleased k =>
      intro k1 a1 h1
      simp only [imStep] at h1 ⊢
      cases hl : mapLookup s.mgr.key_actions k with
      | none => rw [key_released_none s k hl] at h1 ⊢; exact h k1 a1 h1
      | some aid =>
          rw [key_released_some s k aid hl] at h1 ⊢
          simp only [mapLookup_erase] at h1
          by_cases hk : k = k1
          · rw [if_pos hk] at h1; cases h1
          · rw [if_neg hk] at h1; exact h k1 a1 h1
  | opReleaseAll =>
      intro k1 a1 h1
      simp only [imStep, release_all, mapLookup] at h1
      cases h1

/-- `keysPresent` is preserved by every operation sequence. -/
lemma imRun_keysPresent (ops : List IMOp) (s : IMState)
    (h : keysPresent s) : keysPresent (imRun s ops) := by
  induction ops generalizing s with
  | nil => exact h
  | cons op rest ih => exact ih _ (imStep_keysPresent s op h)

/-- `sameInstance` is preserved by every operation that is not a
`map_to_key`. -/
lemma imStep_sameInstance (s : IMState) (op : IMOp)
    (hop : op.isMap = false) (h : sameInstance s) :
    sameInstance (imStep s op) := by
  cases op with
  | opMap k aid => simp [IMOp.isMap] at hop
  | opPressed k =>
      intro k1 a1 h1
      simp only [imStep] at h1 ⊢
      cases hl : mapLookup s.mgr.key_actions k with
      | none => rw [key_pressed_none s k hl] at h1 ⊢; exact h k1 a1 h1
      | some aid =>
          rw [key_pressed_some s k aid hl] at h1 ⊢
          simp only [mapLookup_insert] at h1
          by_cases hk : k = k1
          · rw [if_pos hk] at h1
            subst hk
            simp only []
            rw [hl, h1]
          · rw [if_neg hk] at h1; exact h k1 a1 h1
  | opReleased k =>
      intro k1 a1 h1
      simp only [imStep] at h1 ⊢
      cases hl : mapLookup s.mgr.key_actions k with
      | none => rw [key_released_none s k hl] at h1 ⊢; exact h k1 a1 h1
      | some aid =>
          rw [key_released_some s k aid hl] at h1 ⊢
          simp only [mapLookup_erase] at h1
          by_cases hk : k = k1
          · rw [if_pos hk] at h1; cases h1
          · rw [if_neg hk] at h1; exact h k1 a1 h1
  | opReleaseAll =>
      intro k1 a1 h1
      simp only [imStep, release_all, mapLookup] at h1
      cases h1

lemma imRun_sameInstance (ops : List IMOp) (s : IMState)
    (hops : ∀ op ∈ ops, op.isMap = false) (h : sameInstance s) :
    sameInstance (imRun s ops) := by
  induction ops generalizing s with
  | nil => exact h
  | cons op rest ih =>
      exact ih _ (fun o ho => hops o (List.mem_cons_of_mem op ho))
        (imStep_sameInstance s op (hops op (List.mem_cons_self op rest)) h)

/-- `map_to_key` operations never touch the held set. -/
lemma imRun_maps_pressed (ops : List IMOp) (s : IMState)
    (hops : ∀ op ∈ ops, op.isMap = true) :
    (imRun s ops).mgr.pressed_keys = s.mgr.pressed_keys := by
  induction ops generalizing s with
  | nil => rfl
  | cons op rest ih =>
      have hh := hops op (List.mem_cons_self op rest)
      cases op with
      | opMap k aid =>
          rw [imRun, List.foldl_cons]
          exact ih _ (fun o ho => hops o (List.mem_cons_of_mem _ ho))
      | opPressed k => simp [IMOp.isMap] at hh
      | opReleased k => simp [IMOp.isMap] at hh
      | opReleaseAll => simp [IMOp.isMap] at hh

lemma sameInstance_of_pressed_nil (s : IMState)
    (h : s.mgr.pressed_keys = []) : sameInstance s := by
  intro k aid h1
  rw [h] at h1
  cases h1

/-! ## Claim theorems about `InputManager` -/

/-- Claim C4 counterexample: map key 0 to a fresh `Normal` action, press
it (amount becomes 1), then `release_all`: the action ends in the
`Released` state but with amount 1, not 0 — `release()` does not clear
the accumulator, so the claim's "amount equal to 0" is false. -/
theorem release_all_amount_cex :
    ((imRun (imNew fun _ => freshAction "pressA" .Normal)
        [.opMap 0 0, .opPressed 0, .opReleaseAll]).store 0).state =
      InputActionState.Released ∧
    ((imRun (imNew fun _ => freshAction "pressA" .Normal)
        [.opMap 0 0, .opPressed 0, .opReleaseAll]).store 0).amount = 1 ∧
    ¬ ((imRun (imNew fun _ => freshAction "pressA" .Normal)
        [.opMap 0 0, .opPressed 0, .opReleaseAll]).store 0).amount = 0 := by
  decide

/-- Claim C4 (amended): after `release_all`, the held set `pressed_keys`
is empty and every previously-held action is in the `Released` state; its
amount is left unchanged (it is cleared only by a later `get_amount`
while released), not forced to 0. -/
theorem release_all_spec (s : IMState) (k : Int) (aid : ActionId)
    (h : (k, aid) ∈ s.mgr.pressed_keys) :
    (release_all s).mgr.pressed_keys = [] ∧
    ((release_all s).store aid).state = InputActionState.Released ∧
    ((release_all s).store aid).amount = (s.store aid).amount :=
  ⟨rfl,
   foldl_release_state_mem s.mgr.pressed_keys s.store k aid h,
   foldl_release_amount s.mgr.pressed_keys s.store aid⟩

theorem release_all_spec_witness :
    ((0 : Int), (0 : ActionId)) ∈
      (imRun (imNew fun _ => freshAction "pressA" .Normal)
        [.opMap 0 0, .opPressed 0]).mgr.pressed_keys ∧
    ((release_all (imRun (imNew fun _ => freshAction "pressA" .Normal)
        [.opMap 0 0, .opPressed 0])).mgr.pressed_keys = [] ∧
     ((release_all (imRun (imNew fun _ => freshAction "pressA" .Normal)
        [.opMap 0 0, .opPressed 0])).store 0).state =
       InputActionState.Released ∧
     ((release_all (imRun (imNew fun _ => freshAction "pressA" .Normal)
        [.opMap 0 0, .opPressed 0])).store 0).amount =
       ((imRun (imNew fun _ => freshAction "pressA" .Normal)
        [.opMap 0 0, .opPressed 0]).store 0).amount) :=
  ⟨by decide,
   release_all_spec (imRun (imNew fun _ => freshAction "pressA" .Normal)
     [.opMap 0 0, .opPressed 0]) 0 0 (by decide)⟩

/-- Claim C7 counterexample: map key 0 to action 1, press it, then re-map
key 0 to action 2: key 0 is still held with action 1 in `pressed_keys`
but `key_actions` now binds it to action 2, so the two maps refer to
different instances and the claimed invariant fails after this operation
sequence. -/
theorem remap_breaks_same_instance_cex :
    ¬ sameInstance (imRun (imNew fun _ => freshAction "pressA" .Normal)
        [.opMap 0 1, .opPressed 0, .opMap 0 2]) := by
  intro h
  have h1 := h 0 1 (by decide)
  have h2 : mapLookup (imRun (imNew fun _ => freshAction "pressA" .Normal)
      [.opMap 0 1, .opPressed 0, .opMap 0 2]).mgr.key_actions 0 =
      some 2 := by decide
  rw [h1] at h2
  cases h2

/-- Claim C7 (amended): every key in `pressed_keys` is always also bound
in `key_actions` (the domain inclusion holds after every operation
sequence); the two maps refer to the same action instance provided no
`map_to_key` re-binds a key while it is held — in particular after any
run consisting of `map_to_key` calls followed by
press/release/release-all operations, as in this program where all
mappings happen during `init_input`. -/
theorem input_manager_invariants (ops1 ops2 ops3 : List IMOp)
    (s0 s3 : IMState)
    (h0 : s0.mgr.pressed_keys = [])
    (h1 : ∀ op ∈ ops1, op.isMap = true)
    (h2 : ∀ op ∈ ops2, op.isMap = false)
    (h3 : keysPresent s3) :
    sameInstance (imRun (imRun s0 ops1) ops2) ∧
    keysPresent (imRun s3 ops3) :=
  ⟨imRun_sameInstance ops2 (imRun s0 ops1) h2
     (sameInstance_of_pressed_nil _ (by rw [imRun_maps_pressed ops1 s0 h1, h0])),
   imRun_keysPresent ops3 s3 h3⟩

theorem input_manager_invariants_witness :
    (imNew fun _ => freshAction "pressA" .Normal).mgr.pressed_keys =
      ([] : List (Int × ActionId)) ∧
    (∀ op ∈ ([.opMap 0 0, .opMap 1 0] : List IMOp), op.isMap = true) ∧
    (∀ op ∈ ([.opPressed 0, .opPressed 1, .opReleased 0, .opReleaseAll] :
        List IMOp), op.isMap = false) ∧
    keysPresent (imNew fun _ => freshAction "pressA" .Normal) ∧
    (sameInstance (imRun (imRun (imNew fun _ => freshAction "pressA" .Normal)
        [.opMap 0 0, .opMap 1 0])
        [.opPressed 0, .opPressed 1, .opReleased 0, .opReleaseAll]) ∧
     keysPresent (imRun (imNew fun _ => freshAction "pressA" .Normal)
        [.opMap 0 0, .opPressed 0])) :=
  ⟨rfl, by decide, by decide,
   fun k aid hk => by simp [imNew, mapLookup] at hk,
   input_manager_invariants [.opMap 0 0, .opMap 1 0]
     [.opPressed 0, .opPressed 1, .opReleased 0, .opReleaseAll]
     [.opMap 0 0, .opPressed 0]
     (imNew fun _ => freshAction "pressA" .Normal)
     (imNew fun _ => freshAction "pressA" .Normal)
     rfl (by decide) (by decide)
     (fun k aid hk => by simp [imNew, mapLookup] at hk)⟩

/-! ## Lemmas about the scheduler -/

lemma catchUp_count_le (fuel : Nat) (e p : ℚ) :
    (catchUp fuel e p).2 ≤ fuel := by
  induction fuel generalizing e with
  | zero => simp [catchUp]
  | succ f ih =>
      simp only [catchUp]
      split
      · exact Nat.succ_le_succ (ih _)
      · exact Nat.zero_le _

lemma catchUp_excess_eq (fuel : Nat) (e p : ℚ) :
    (catchUp fuel e p).1 = e - ((catchUp fuel e p).2 : ℚ) * p := by
  induction fuel generalizing e with
  | zero => simp [catchUp]
  | succ f ih =>
      simp only [catchUp]
      split
      · rw [ih (e - p)]
        push_cast
        ring
      · simp

lemma catchUp_nonneg (fuel : Nat) (e p : ℚ) (he : 0 ≤ e) :
    0 ≤ (catchUp fuel e p).1 := by
  induction fuel generalizing e with
  | zero => simpa [catchUp]
  | succ f ih =>
      simp only [catchUp]
      split_ifs with hc
      · exact ih _ (by linarith)
      · exact he

/-- With a positive period, `n ≤ fuel` whole periods of excess are drained
in exactly `n` catch-up steps. -/
lemma catchUp_exact (p : ℚ) (hp : 0 < p) (n : Nat) :
    ∀ fuel, n ≤ fuel → catchUp fuel ((n : ℚ) * p) p = (0, n) := by
  induction n with
  | zero =>
      intro fuel _
      cases fuel with
      | zero => simp [catchUp]
      | succ f =>
          simp only [catchUp]
          rw [if_neg (by push_cast; linarith)]
          norm_num
  | succ m ih =>
      intro fuel hf
      cases fuel with
      | zero => omega
      | succ f =>
          have hm : (0 : ℚ) ≤ (m : ℚ) * p := by positivity
          simp only [catchUp]
          rw [if_pos (by push_cast; nlinarith)]
          have he : ((m + 1 : Nat) : ℚ) * p - p = (m : ℚ) * p := by
            push_cast; ring
          rw [he, ih f (by omega)]

lemma schedIter_updates (frame : ℚ) (st : SchedState) (inp : IterInput) :
    (schedIter frame st inp).2 ≤ 1 + MAX_FRAME_SKIPS := by
  simp only [schedIter]
  split_ifs <;> exact Nat.add_le_add_left (catchUp_count_le _ _ _) 1

/-- One iteration preserves non-negativity of `excess_ticks` and
`over_sleep_ticks`. -/
lemma schedIter_inv (frame : ℚ) (st : SchedState)
    (inp : IterInput) (hex : 0 ≤ st.excess) :
    0 ≤ (schedIter frame st inp).1.excess ∧
    0 ≤ (schedIter frame st inp).1.overSleep := by
  simp only [schedIter]
  split_ifs with h1 h2 h3
  · exact ⟨catchUp_nonneg _ _ _ hex, le_refl 0⟩
  · exact ⟨catchUp_nonneg _ _ _ hex, by simpa using not_lt.mp h2⟩
  · have h4 : frame < inp.after - st.before + st.overSleep := not_le.mp h1
    exact ⟨catchUp_nonneg _ _ _ (show (0 : ℚ) ≤ st.excess +
      (inp.after - st.before + st.overSleep - frame) by linarith),
      le_refl 0⟩
  · have h4 : frame < inp.after - st.before + st.overSleep := not_le.mp h1
    exact ⟨catchUp_nonneg _ _ _ (show (0 : ℚ) ≤ st.excess +
      (inp.after - st.before + st.overSleep - frame) by linarith),
      le_refl 0⟩

/-! ## Claim theorems about the scheduler -/

/-- Claim C1 (confirmed): an iteration makes one initial update plus the
catch-up updates; the catch-up loop drains one `frame_period` per extra
update, never runs more than `MAX_FRAME_SKIPS = 5` extra updates (so an
iteration makes at most `1 + MAX_FRAME_SKIPS` update calls), and an
iteration entering catch-up with `excess_time = 4 * frame_period` runs
exactly 4 extra updates. -/
theorem scheduler_catch_up (frame e : ℚ) (st : SchedState)
    (inp : IterInput) (hf : 0 < frame) :
    (schedIter frame st inp).2 ≤ 1 + MAX_FRAME_SKIPS ∧
    (catchUp MAX_FRAME_SKIPS e frame).2 ≤ MAX_FRAME_SKIPS ∧
    (catchUp MAX_FRAME_SKIPS e frame).1 =
      e - ((catchUp MAX_FRAME_SKIPS e frame).2 : ℚ) * frame ∧
    catchUp MAX_FRAME_SKIPS (4 * frame) frame = (0, 4) := by
  refine ⟨schedIter_updates frame st inp, catchUp_count_le _ _ _,
    catchUp_excess_eq _ _ _, ?_⟩
  have h := catchUp_exact frame hf 4 MAX_FRAME_SKIPS (by norm_num [MAX_FRAME_SKIPS])
  norm_num at h
  exact h

theorem scheduler_catch_up_witness :
    0 < (1 : ℚ) ∧
    ((schedIter 1 ⟨0, 0, 0, 0⟩ ⟨0, 0, 0⟩).2 ≤ 1 + MAX_FRAME_SKIPS ∧
     (catchUp MAX_FRAME_SKIPS (3 / 2 : ℚ) 1).2 ≤ MAX_FRAME_SKIPS ∧
     (catchUp MAX_FRAME_SKIPS (3 / 2 : ℚ) 1).1 =
       3 / 2 - ((catchUp MAX_FRAME_SKIPS (3 / 2 : ℚ) 1).2 : ℚ) * 1 ∧
     catchUp MAX_FRAME_SKIPS ((4 : ℚ) * 1) 1 = (0, 4)) :=
  ⟨by norm_num,
   scheduler_catch_up 1 (3 / 2) ⟨0, 0, 0, 0⟩ ⟨0, 0, 0⟩ (by norm_num)⟩

/-- Claim C6 (confirmed): for every positive frame period and every
sequence of counter readings, starting from a state with non-negative
`excess_time` and `over_sleep_time` (as at loop entry, where both are 0),
both quantities are non-negative at the end of every iteration. -/
theorem scheduler_nonneg_invariant (frame : ℚ) (st : SchedState)
    (inps : List IterInput) (hf : 0 < frame) (hex : 0 ≤ st.excess)
    (hos : 0 ≤ st.overSleep) :
    0 ≤ (schedRun frame st inps).excess ∧
    0 ≤ (schedRun frame st inps).overSleep := by
  induction inps generalizing st with
  | nil => exact ⟨hex, hos⟩
  | cons i is ih =>
      have h := schedIter_inv frame st i hex
      simpa [schedRun, List.foldl_cons] using ih _ h.1 h.2

theorem scheduler_nonneg_invariant_witness :
    0 < (1 : ℚ) ∧ 0 ≤ (SchedState.mk 0 0 0 0).excess ∧
    0 ≤ (SchedState.mk 0 0 0 0).overSleep ∧
    (0 ≤ (schedRun 1 ⟨0, 0, 0, 0⟩ [⟨0, 0, 0⟩, ⟨3, 3, 3⟩]).excess ∧
     0 ≤ (schedRun 1 ⟨0, 0, 0, 0⟩ [⟨0, 0, 0⟩, ⟨3, 3, 3⟩]).overSleep) :=
  ⟨by norm_num, le_refl 0, le_refl 0,
   scheduler_nonneg_invariant 1 ⟨0, 0, 0, 0⟩ [⟨0, 0, 0⟩, ⟨3, 3, 3⟩]
     (by norm_num) (le_refl 0) (le_refl 0)⟩

/-- Claim C3 counterexample: the subtraction `after_ticks - before_ticks`
at mod.rs line 286 is the plain `u64` operator, not a saturating one:
with a later reading 0 and an earlier reading 1 it wraps to `2^64 - 1`
(and panics in a debug build) instead of saturating to 0. -/
theorem proc_ticks_not_saturating_cex :
    procTicksSub 0 1 ≠ u64SaturatingSub 0 1 ∧
    procTicksSub 0 1 = 18446744073709551615 ∧
    u64SaturatingSub 0 1 = 0 := by
  refine ⟨?_, by decide, by decide⟩
  decide

/-- Claim C3 (amended): only the elapsed-time computation at mod.rs line
266 uses `saturating_sub` (and therefore never underflows and is never
negative); the processing-time, oversleep and spin-loop subtractions at
lines 286, 295 and 299 use the plain `u64` operator, which yields the
exact non-negative difference only when the later reading is at least the
earlier one (as with a monotonic counter), and wraps otherwise. -/
theorem tick_subtractions (a b beforeT startT : Nat) (hba : b ≤ a)
    (ha : a < U64MOD) :
    ((elapsedTicks beforeT startT : Int) =
       max ((beforeT : Int) - (startT : Int)) 0) ∧
    procTicksSub a b = a - b ∧
    overSleepTicksSub a b = a - b ∧
    spinTicksSub a b = a - b := by
  refine ⟨?_, ?_, ?_, ?_⟩
  · unfold elapsedTicks u64SaturatingSub
    omega
  · have hb : b < U64MOD := lt_of_le_of_lt hba ha
    unfold procTicksSub u64Sub
    unfold U64MOD at ha hb ⊢
    omega
  · have hb : b < U64MOD := lt_of_le_of_lt hba ha
    unfold overSleepTicksSub u64Sub
    unfold U64MOD at ha hb ⊢
    omega
  · have hb : b < U64MOD := lt_of_le_of_lt hba ha
    unfold spinTicksSub u64Sub
    unfold U64MOD at ha hb ⊢
    omega

theorem tick_subtractions_witness :
    (3 : Nat) ≤ 10 ∧ (10 : Nat) < U64MOD ∧
    (((elapsedTicks 5 7 : Int) = max ((5 : Int) - (7 : Int)) 0) ∧
     procTicksSub 10 3 = 10 - 3 ∧
     overSleepTicksSub 10 3 = 10 - 3 ∧
     spinTicksSub 10 3 = 10 - 3) :=
  ⟨by decide, by norm_num [U64MOD],
   tick_subtractions 10 3 5 7 (by decide) (by norm_num [U64MOD])⟩

/-! ## Lemmas about `FrameHistory` -/

/-- In a list whose timestamps are non-decreasing from one sample to the
next, the first timestamp is at most the last. -/
lemma chain_head_le_getLast :
    ∀ (l : List Sample) (f la : Sample),
      List.Chain' (fun x y => x.t ≤ y.t) l →
      l.head? = some f → l.getLast? = some la → f.t ≤ la.t
  | [], _, _, _, hh, _ => by cases hh
  | [x], f, la, _, hh, hl => by
      have h1 : x = f := by simpa using hh
      have h2 : x = la := by simpa [List.getLast?] using hl
      rw [← h1, ← h2]
  | x :: y :: ys, f, la, hch, hh, hl => by
      have h1 : x = f := by simpa using hh
      have h2 : x.t ≤ y.t := (List.chain'_cons.mp hch).1
      have h3 : y.t ≤ la.t :=
        chain_head_le_getLast (y :: ys) y la (List.chain'_cons.mp hch).2 rfl
          (by simpa [List.getLast?_cons_cons] using hl)
      rw [← h1]
      exact le_trans h2 h3

/-- `mean_time_interval` is `none` on histories of fewer than 2 samples. -/
lemma meanTimeInterval_short (l : List Sample) (h : l.length < 2) :
    historyMeanTimeInterval l = none := by
  match l with
  | [] => rfl
  | [x] => rfl
  | x :: y :: r => exact absurd h (by simp)

lemma meanTimeInterval_inv : ∀ (l : List Sample) (m : ℚ),
    historyMeanTimeInterval l = some m →
    ∃ f la, l.head? = some f ∧ l.getLast? = some la ∧
      2 ≤ l.length ∧
      m = (la.t - f.t) / ((l.length : ℚ) - 1)
  | [], m, hm => by simp [historyMeanTimeInterval] at hm
  | [x], m, hm => by simp [historyMeanTimeInterval] at hm
  | x :: y :: r, m, hm => by
      have hs : (x :: y :: r).getLast?.isSome := by
        rw [List.getLast?_isSome]
        simp
      obtain ⟨la, hla⟩ := Option.isSome_iff_exists.mp hs
      refine ⟨x, la, rfl, hla, by simp, ?_⟩
      unfold historyMeanTimeInterval at hm
      rw [hla] at hm
      simp only [List.head?_cons] at hm
      rw [if_pos (by simp)] at hm
      simp at hm
      rw [← hm]
      norm_num

/-- Claim C8 (confirmed): `mean_frame_time` is 0 on an empty history;
`fps` is 0 with fewer than 2 samples and 0 when the mean interval is 0;
with at least 2 samples recorded at non-decreasing timestamps and a
nonzero mean interval `m`, `fps` is exactly `1 / m` — never a division by
zero. -/
theorem frame_history_guards (l1 l2 : List Sample) (m : ℚ)
    (h1 : l1.length < 2)
    (hc : List.Chain' (fun x y => x.t ≤ y.t) l2)
    (hm : historyMeanTimeInterval l2 = some m) :
    mean_frame_time [] = 0 ∧
    fps l1 = 0 ∧
    (m = 0 → fps l2 = 0) ∧
    (m ≠ 0 → fps l2 = 1 / m) := by
  have hfps2 : fps l2 = if 0 < m then 1 / m else 0 := by
    simp [fps, hm]
  have hm_nonneg : 0 ≤ m := by
    obtain ⟨f, la, hh, hl, hlen, hmv⟩ := meanTimeInterval_inv l2 m hm
    have hfl := chain_head_le_getLast l2 f la hc hh hl
    have hden : (0 : ℚ) < (l2.length : ℚ) - 1 := by
      have h2 : (2 : ℚ) ≤ (l2.length : ℚ) := by exact_mod_cast hlen
      linarith
    rw [hmv]
    exact div_nonneg (by linarith) hden.le
  refine ⟨rfl, ?_, ?_, ?_⟩
  · simp [fps, meanTimeInterval_short l1 h1]
  · intro h0
    rw [hfps2, h0]
    norm_num
  · intro h0
    rw [hfps2, if_pos (lt_of_le_of_ne hm_nonneg (Ne.symm h0))]

theorem frame_history_guards_witness :
    ([Sample.mk 0 1] : List Sample).length < 2 ∧
    List.Chain' (fun x y => x.t ≤ y.t)
      [Sample.mk 0 1, Sample.mk 2 1, Sample.mk 4 1] ∧
    historyMeanTimeInterval [Sample.mk 0 1, Sample.mk 2 1, Sample.mk 4 1] =
      some 2 ∧
    (mean_frame_time [] = 0 ∧
     fps [Sample.mk 0 1] = 0 ∧
     ((2 : ℚ) = 0 → fps [Sample.mk 0 1, Sample.mk 2 1, Sample.mk 4 1] = 0) ∧
     ((2 : ℚ) ≠ 0 →
       fps [Sample.mk 0 1, Sample.mk 2 1, Sample.mk 4 1] = 1 / 2)) :=
  ⟨by decide,
   by norm_num [List.chain'_cons, List.chain'_singleton],
   by norm_num [historyMeanTimeInterval, List.getLast?],
   frame_history_guards [Sample.mk 0 1]
     [Sample.mk 0 1, Sample.mk 2 1, Sample.mk 4 1] 2
     (by decide)
     (by norm_num [List.chain'_cons, List.chain'_singleton])
     (by norm_num [historyMeanTimeInterval, List.getLast?])⟩

end SpecProof
